import Mathlib

/-!
Verification of the spacetime-crawler4py scheduling core and scraper.

Shallow embedding of:
  - src/scraper.py              (scraper, extract_next_links, is_valid)
  - src/crawler/mt_frontier.py  (Frontier: get_tbd_url, add_url, mark_url_complete)
  - src/crawler/mt_worker.py    (Worker.run loop body)

Python strings are Lean `String`s, Python `time.time()` values are `ℚ`,
Python sets are duplicate-free Lean lists, `collections.deque` is a Lean
list whose head is the popleft end, and the Python `dict` used for
per-domain timestamps is an association list.  Exceptions are modelled
with `Except PyErr`.  The analytics side channel of scraper.py (word_freq,
longest_page, subdomain_counts, stats dump) does not influence any return
value and is omitted.
-/

namespace Crawler

/-! ### Basic string machinery (models of the Python str operations used) -/

/-- Lowercase one character; model of Python `str.lower` restricted to ASCII
(all constants and claim inputs are ASCII). -/
def lowerChar (c : Char) : Char :=
  if 'A' ≤ c ∧ c ≤ 'Z' then Char.ofNat (c.toNat + 32) else c

/-- Model of Python `str.lower`. -/
def lowerStr (s : String) : String := ⟨s.data.map lowerChar⟩

/-- Boolean list-prefix test (structural, kernel-reducible). -/
def isPrefixB : List Char → List Char → Bool
  | [], _ => true
  | _ :: _, [] => false
  | a :: as, b :: bs => a == b && isPrefixB as bs

/-- Boolean substring test on character lists; model of Python `in` on str. -/
def substrLB (need : List Char) : List Char → Bool
  | [] => isPrefixB need []
  | c :: rest => isPrefixB need (c :: rest) || substrLB need rest

/-- Model of Python `needle in hay` for strings. -/
def substrB (need hay : String) : Bool := substrLB need.data hay.data

/-- Model of Python `s.endswith(t)`. -/
def endsWithB (s t : String) : Bool := isPrefixB t.data.reverse s.data.reverse

/-- Model of Python `s.startswith(t)`. -/
def startsWithB (s t : String) : Bool := isPrefixB t.data s.data

/-- Split a character list at the first occurrence of `c`; model of
Python `str.split(c, 1)` / `str.partition(c)` (the separator is dropped). -/
def splitOnFirst (c : Char) : List Char → Option (List Char × List Char)
  | [] => none
  | x :: xs =>
    if x == c then some ([], xs)
    else (splitOnFirst c xs).map (fun p => (x :: p.1, p.2))

/-- Split a character list at the last occurrence of `c`; model of
Python `str.rpartition(c)` (the separator is dropped). -/
def splitOnLast (c : Char) (l : List Char) : Option (List Char × List Char) :=
  match splitOnFirst c l.reverse with
  | none => none
  | some (ra, rb) => some (rb.reverse, ra.reverse)

/-! ### Model of urllib.parse (external standard library collaborator)

The portion of CPython `urllib.parse.urlsplit` / `urlparse` exercised by
the repository: removal of tab/CR/LF, scheme recognition, netloc splitting
after `//`, the Invalid-IPv6-URL `ValueError` for a netloc with an
unmatched bracket, fragment and query splitting, the `;params` split of
`urlparse`, and the `hostname` accessor (userinfo stripped at the last
`@`, bracketed host or port stripped, lowercased, `None` when empty). -/

/-- Python-level exceptions that the modelled code can raise. -/
inductive PyErr where
  | valueError
deriving Repr, DecidableEq

/-- Characters CPython's urlsplit removes from the whole URL before parsing
(`_UNSAFE_URL_BYTES_TO_REMOVE`): tab, CR, LF. -/
def isRemovedChar (c : Char) : Bool := c == '\t' || c == '\r' || c == '\n'

/-- Remove tab/CR/LF anywhere in the URL, as CPython urlsplit does. -/
def cleanUrlStr (s : String) : String := ⟨s.data.filter (fun c => !(isRemovedChar c))⟩

/-- Characters allowed inside a URL scheme (CPython `scheme_chars`). -/
def isSchemeChar (c : Char) : Bool := c.isAlpha || c.isDigit || c == '+' || c == '-' || c == '.'

/-- Recognise and strip the scheme, as CPython urlsplit does: a `:` at
position `> 0`, the first character alphabetic and every character before
the `:` a scheme character; the scheme is lowercased. -/
def splitScheme (l : List Char) : String × List Char :=
  match splitOnFirst ':' l with
  | none => ("", l)
  | some (before, after) =>
    match before with
    | [] => ("", l)
    | b :: _ =>
      if b.isAlpha && before.all isSchemeChar then (⟨before.map lowerChar⟩, after)
      else ("", l)

/-- Take characters up to the first of `/`, `?`, `#` (CPython `_splitnetloc`):
returns (netloc, rest-including-delimiter). -/
def takeUntilDelims : List Char → List Char × List Char
  | [] => ([], [])
  | c :: cs =>
    if c == '/' || c == '?' || c == '#' then ([], c :: cs)
    else
      let p := takeUntilDelims cs
      (c :: p.1, p.2)

/-- Result of urlsplit, per CPython's SplitResult fields (params of
`urlparse` are dropped, not retained, because the source never reads them). -/
structure SplitResult where
  scheme : String
  netloc : String
  path : String
  query : String
  fragment : String
deriving Repr, DecidableEq

/-- Total part of CPython urlsplit: clean, split scheme, split netloc after
`//`, split fragment at the first `#`, split query at the first `?`. -/
def urlsplitRaw (url : String) : SplitResult :=
  let l := (cleanUrlStr url).data
  let sr := splitScheme l
  let scheme := sr.1
  let nl :=
    match sr.2 with
    | '/' :: '/' :: tl => takeUntilDelims tl
    | rest => ([], rest)
  let fr :=
    match splitOnFirst '#' nl.2 with
    | some (a, b) => (a, b)
    | none => (nl.2, [])
  let pq :=
    match splitOnFirst '?' fr.1 with
    | some (a, b) => (a, b)
    | none => (fr.1, [])
  ⟨scheme, ⟨nl.1⟩, ⟨pq.1⟩, ⟨pq.2⟩, ⟨fr.2⟩⟩

/-- CPython urlsplit raises `ValueError("Invalid IPv6 URL")` when the netloc
contains `[` without `]` or `]` without `[`. -/
def bracketMismatch (netloc : String) : Bool :=
  (netloc.data.contains '[' && !(netloc.data.contains ']')) ||
  (netloc.data.contains ']' && !(netloc.data.contains '['))

/-- Model of `urllib.parse.urlsplit`: the total split plus the Invalid-IPv6
`ValueError`. -/
def urlsplitE (url : String) : Except PyErr SplitResult :=
  let p := urlsplitRaw url
  if bracketMismatch p.netloc then .error .valueError else .ok p

/-- Schemes for which `urlparse` splits `;params` off the path
(CPython `uses_params`). -/
def USES_PARAMS : List String :=
  ["", "ftp", "hdl", "prospero", "http", "imap", "https", "shttp",
   "rtsp", "rtsps", "rtspu", "sip", "sips", "mms", "sftp", "tel"]

/-- CPython `_splitparams` applied to a path containing `;`: drop everything
from the first `;` of the last path segment (no-op when the last segment has
no `;`). -/
def splitParamsSeg (path : List Char) : List Char :=
  match splitOnLast '/' path with
  | some (before, after) =>
    match splitOnFirst ';' after with
    | some (a, _) => before ++ '/' :: a
    | none => path
  | none =>
    match splitOnFirst ';' path with
    | some (a, _) => a
    | none => path

/-- Model of `urllib.parse.urlparse`: urlsplit, then for schemes in
`uses_params` split `;params` off the path. -/
def pyUrlparse (url : String) : Except PyErr SplitResult :=
  (urlsplitE url).map (fun p =>
    if USES_PARAMS.contains p.scheme && p.path.data.contains ';' then
      { p with path := ⟨splitParamsSeg p.path.data⟩ }
    else p)

/-- Model of the `SplitResult.hostname` accessor: strip userinfo at the last
`@`; if a `[` is present take the part between `[` and `]`, otherwise strip
the `:port`; lowercase; `None` when empty. -/
def hostname (p : SplitResult) : Option String :=
  let hostinfo : List Char :=
    match splitOnLast '@' p.netloc.data with
    | some (_, after) => after
    | none => p.netloc.data
  let host : List Char :=
    match splitOnFirst '[' hostinfo with
    | some (_, bracketed) =>
      (match splitOnFirst ']' bracketed with
       | some (a, _) => a
       | none => bracketed)
    | none =>
      (match splitOnFirst ':' hostinfo with
       | some (a, _) => a
       | none => hostinfo)
  match host with
  | [] => none
  | _ => some (lowerStr ⟨host⟩)

/-- Model of `urllib.parse.urldefrag` (the kept half): everything before the
first `#`. -/
def urldefrag (s : String) : String :=
  match splitOnFirst '#' s.data with
  | some (a, _) => ⟨a⟩
  | none => s

/-- `urlparse(url).netloc` as used by the Frontier for the politeness key.
The Frontier only ever parses URLs for their netloc; the netloc component is
computed before (and independently of) the bracket-validity check, so this
is total. -/
def netloc (url : String) : String := (urlsplitRaw url).netloc

/-! ### Model of src/scraper.py -/

/-- Domains the crawler may visit (`ALLOWED_DOMAINS` in scraper.py). -/
def ALLOWED_DOMAINS : List String :=
  ["ics.uci.edu", "cs.uci.edu", "informatics.uci.edu", "stat.uci.edu"]

/-- Trap substrings (`TRAP_WORDS` in scraper.py). -/
def TRAP_WORDS : List String :=
  ["format=pdf", "action=download", "share=", "sort=", "view=all",
   "ngs.ics", "wics.ics", "wp-content/uploads", "doku.php", "do=diff",
   "do=edit", "do=revisions", "do=backlink", "do=media", "namespace=", "idx="]

/-- Extensions of the regex alternation in `is_valid` (scraper.py lines
231-240), with `jpe?g` expanded to jpg/jpeg, `tiff?` to tif/tiff.  On a
path free of newlines (urlsplit strips them), CPython's
`re.match(r".*\.(alt)$", path)` succeeds exactly when the path ends with
`"." ++ e` for some alternative `e`; the regex is modelled by that
condition. -/
def BAD_EXTENSIONS : List String :=
  ["css", "js", "bmp", "gif", "jpg", "jpeg", "ico",
   "png", "tif", "tiff", "mid", "mp2", "mp3", "mp4",
   "wav", "avi", "mov", "mpeg", "ram", "m4v", "mkv", "ogg", "ogv", "pdf",
   "ps", "eps", "tex", "ppt", "pptx", "doc", "docx", "xls", "xlsx", "names",
   "data", "dat", "exe", "bz2", "tar", "msi", "bin", "7z", "psd", "dmg", "iso",
   "epub", "dll", "cnf", "tgz", "sha1",
   "thmx", "mso", "arff", "rtf", "jar", "csv",
   "rm", "smil", "wmv", "swf", "wma", "zip", "rar", "gz"]

/-- Model of `is_valid` (scraper.py lines 198-248).  The Python code wraps
the body in `try ... except TypeError`; `urlparse` raises `TypeError` only
for non-string arguments, which the embedding cannot express, so that
handler is dead here, while a `ValueError` from url parsing (unmatched
IPv6 bracket) is NOT caught and propagates to the caller — hence the
`Except` result. -/
def is_valid (url : String) : Except PyErr Bool :=
  match pyUrlparse url with
  | .error e => .error e
  | .ok p =>
    .ok (
      if !(p.scheme == "http" || p.scheme == "https") then false
      else
        match hostname p with
        | none => false
        | some h =>
          if !(ALLOWED_DOMAINS.any fun d => h == d || endsWithB h ("." ++ d)) then false
          else
            let path := lowerStr p.path
            let query := lowerStr p.query
            let full := path ++ "?" ++ query
            if TRAP_WORDS.any (fun t => substrB t full) then false
            else if BAD_EXTENSIONS.any (fun e => endsWithB path ("." ++ e)) then false
            else true)

/-- Result of parsing an HTML document with BeautifulSoup, after the
`script`/`style`/`noscript` tags are extracted: the visible text
(`soup.get_text`) and the `href` values of the anchor tags
(`soup.find_all("a", href=True)`).  BeautifulSoup is an external library;
it is modelled by its observable output, with parse failure (the caught
exception) as `none` at the use sites. -/
structure Soup where
  text : String
  hrefs : List String
deriving Repr, DecidableEq

/-- The `raw_response` object of a response: final URL (possibly absent),
headers, and the document (already modelled as its parse result; `none`
means BeautifulSoup raises on this content). -/
structure Raw where
  url : Option String
  headers : List (String × String)
  content : Option Soup
deriving Repr, DecidableEq

/-- The response object handed to `scraper`: cache-server status and the
optional `raw_response`. -/
structure Response where
  status : Nat
  rawResponse : Option Raw
deriving Repr, DecidableEq

/-- Model of Python `headers.get(key, "")` on the header map. -/
def headerGet (hs : List (String × String)) (key : String) : String :=
  match hs.find? (fun p => p.1 == key) with
  | some p => p.2
  | none => ""

/-- Model of Python `a or b` on strings/optional strings: `b` when `a` is
`None` or empty. -/
def pyOrStr (a : Option String) (b : String) : String :=
  match a with
  | some s => if s = "" then b else s
  | none => b

/-- Maximal runs of `[a-zA-Z]` characters; model of
`re.findall(r"[a-zA-Z]+", text)`. -/
def alphaRuns : List Char → List (List Char)
  | [] => []
  | c :: cs =>
    let rest := alphaRuns cs
    if c.isAlpha then
      match cs with
      | c2 :: _ =>
        if c2.isAlpha then
          match rest with
          | r :: rs => (c :: r) :: rs
          | [] => [[c]]
        else [c] :: rest
      | [] => [[c]]
    else rest

/-- Model of `re.findall(r"[a-zA-Z]+", text.lower())` (scraper.py line 129). -/
def tokens (text : String) : List (List Char) := alphaRuns (lowerStr text).data

/-- Model of `extract_next_links` (scraper.py lines 159-195): for HTML
content, resolve each href against `raw.url or url`, strip the fragment,
and drop `mailto:`/`javascript:` links.  `urljoin` is an external stdlib
collaborator; it is modelled for the cases the claims touch: an href that
itself has a scheme or starts with `//` replaces the base, a root-relative
href replaces the base path, anything else is appended to the base
directory.  No claim depends on the resolver's fine structure. -/
def urljoin (base href : String) : String :=
  if href = "" then base
  else if (splitScheme href.data).1 ≠ "" || startsWithB href "//" then href
  else
    let b := urlsplitRaw base
    let prefixPart := b.scheme ++ "://" ++ b.netloc
    if startsWithB href "/" then prefixPart ++ href
    else
      let dir :=
        match splitOnLast '/' b.path.data with
        | some (before, _) => ⟨before⟩ ++ "/"
        | none => "/"
      prefixPart ++ dir ++ href

def extract_next_links (url : String) (resp : Response) : List String :=
  match resp.rawResponse with
  | none => []
  | some raw =>
    if !(substrB "text/html" (headerGet raw.headers "Content-Type")) then []
    else
      match raw.content with
      | none => []
      | some soup =>
        let base := pyOrStr raw.url url
        soup.hrefs.filterMap (fun href =>
          if href = "" then none
          else
            let absolute := urldefrag (urljoin base href)
            if startsWithB absolute "mailto:" || startsWithB absolute "javascript:" then none
            else some absolute)

/-- The filter `[link for link in links if is_valid(link)]` (scraper.py
line 156): `is_valid` is evaluated left to right and its first uncaught
exception propagates out of `scraper`. -/
def filterValid : List String → Except PyErr (List String)
  | [] => .ok []
  | l :: ls => do
    let b ← is_valid l
    let rest ← filterValid ls
    pure (if b then l :: rest else rest)

/-- Model of `scraper` (scraper.py lines 108-156).  The analytics block
(lines 133-149) mutates only the reporting side channel and is omitted;
`num_words` is `len(tokens)` for successfully parsed HTML and `0`
otherwise, exactly as in the source, and pages with `num_words < 50` are
not expanded. -/
def scraper (url : String) (resp : Response) : Except PyErr (List String) :=
  match resp.rawResponse with
  | none => .ok []
  | some raw =>
    if resp.status ≠ 200 then .ok []
    else
      let contentType := headerGet raw.headers "Content-Type"
      let numWords : Nat :=
        if substrB "text/html" contentType then
          match raw.content with
          | some soup => (tokens soup.text).length
          | none => 0
        else 0
      let links := extract_next_links url resp
      if numWords < 50 then .ok []
      else filterValid links

/-! ### Model of src/crawler/mt_frontier.py

The Frontier's methods mutate its state only inside one critical section
per call (`with self._lock`), so every concurrent execution is some
interleaving of atomic lock-held sections.  The embedding makes each
section a pure state transformer and a concurrent run an arbitrary list of
`Event`s; claims about "any interleaving" quantify over that list.  One
`Event.get t` is one lock-held pass of the `while True` loop of
`get_tbd_url` with `time.time() = t`; the sleeps between passes happen
outside the lock and are represented by the gaps between events. -/

/-- Frontier state (mt_frontier.py lines 24-32).  `inProgress` is a Python
int, hence `Int` (the clamp in `mark_url_complete` is then a real
property, not a tautology of `Nat`); time values are `ℚ`. -/
structure Frontier where
  queue : List String
  seen : List String
  completed : List String
  inProgress : Int
  domainNextAllowed : List (String × ℚ)
  delay : ℚ
deriving Repr, DecidableEq

/-- Model of `self._domain_next_allowed.get(domain, 0.0)`. -/
def lookupD (dna : List (String × ℚ)) (d : String) : ℚ :=
  match dna.find? (fun p => p.1 == d) with
  | some p => p.2
  | none => 0

/-- Model of `self._domain_next_allowed[domain] = v`. -/
def updateDna (dna : List (String × ℚ)) (d : String) (v : ℚ) : List (String × ℚ) :=
  match dna with
  | [] => [(d, v)]
  | p :: rest => if p.1 == d then (d, v) :: rest else p :: updateDna rest d v

/-- Model of `add_url` (mt_frontier.py lines 97-105): empty URL is a no-op,
a URL in the seen set or the completed set is a no-op, otherwise the URL
enters the seen set and is appended to the pending queue. -/
def add_url (url : String) (s : Frontier) : Frontier :=
  if url = "" then s
  else if url ∈ s.seen ∨ url ∈ s.completed then s
  else { s with seen := url :: s.seen, queue := s.queue ++ [url] }

/-- Model of `mark_url_complete` (mt_frontier.py lines 107-115): add to the
completed set; decrement the in-flight counter only when it is positive. -/
def mark_url_complete (url : String) (s : Frontier) : Frontier :=
  if url = "" then s
  else
    { s with
      completed := if url ∈ s.completed then s.completed else url :: s.completed,
      inProgress := if 0 < s.inProgress then s.inProgress - 1 else s.inProgress }

/-- Outcome of one lock-held pass of `get_tbd_url`: the terminal `None`, a
dispatched URL, or the sleep the pass performs after releasing the lock. -/
inductive GetResult where
  | done
  | url (u : String)
  | sleep (t : ℚ)
deriving Repr, DecidableEq

/-- The `for _ in range(len(self._queue))` scan (mt_frontier.py lines
73-89): pop each URL of the original queue once; if its domain's
next-allowed time has passed, reserve the domain and stop, else push the
URL to the back and track the minimum remaining wait.  Arguments: the not
yet examined front of the queue, the re-appended back, the running minimum
wait.  Returns (dispatched URL with the updated domain table if any, the
queue left behind, the minimum wait). -/
def scanQueue (now delay : ℚ) (dna : List (String × ℚ)) :
    List String → List String → Option ℚ →
    Option (String × List (String × ℚ)) × List String × Option ℚ
  | [], back, minWait => (none, back, minWait)
  | u :: rest, back, minWait =>
    let d := netloc u
    let na := lookupD dna d
    if na ≤ now then (some (u, updateDna dna d (now + delay)), rest ++ back, minWait)
    else
      let w := na - now
      scanQueue now delay dna rest (back ++ [u])
        (some (match minWait with | none => w | some m => if w < m then w else m))

/-- One lock-held pass of `get_tbd_url` (mt_frontier.py lines 58-92) at
time `now`: empty queue means `None` (when nothing is in flight) or a
politeness-delay sleep; otherwise the scan either dispatches a URL
(incrementing the in-flight counter) or leaves a rotated queue and sleeps
for the tracked minimum wait, floored at 0.01 and defaulting to the
politeness delay. -/
def getTbdStep (now : ℚ) (s : Frontier) : GetResult × Frontier :=
  match s.queue with
  | [] =>
    if s.inProgress = 0 then (.done, s) else (.sleep s.delay, s)
  | q0 :: qrest =>
    match scanQueue now s.delay s.domainNextAllowed (q0 :: qrest) [] none with
    | (some (u, dna), q, _) =>
      (.url u,
       { s with queue := q, domainNextAllowed := dna, inProgress := s.inProgress + 1 })
    | (none, q, minWait) =>
      (.sleep (max (minWait.getD s.delay) (1 / 100)), { s with queue := q })

/-- One atomic (lock-held) action on the Frontier, from any worker. -/
inductive Event where
  | add (url : String)
  | complete (url : String)
  | get (now : ℚ)
deriving Repr, DecidableEq

/-- Apply one event; the second component reports a dispatch (its time and
URL) when the event is a `get` pass that returned a URL. -/
def stepEv (s : Frontier) : Event → Frontier × Option (ℚ × String)
  | .add u => (add_url u s, none)
  | .complete u => (mark_url_complete u s, none)
  | .get now =>
    match getTbdStep now s with
    | (.url u, s2) => (s2, some (now, u))
    | (_, s2) => (s2, none)

/-- Run a list of events. -/
def runEvents (s : Frontier) : List Event → Frontier
  | [] => s
  | e :: es => runEvents (stepEv s e).1 es

/-- The (time, URL) pairs dispatched along a run, in order. -/
def runDispatches (s : Frontier) : List Event → List (ℚ × String)
  | [] => []
  | e :: es =>
    let r := stepEv s e
    r.2.toList ++ runDispatches r.1 es

/-- The Frontier as `__init__` builds it (mt_frontier.py lines 20-45):
empty structures, the politeness delay clamped up to 0.5, and the seed
URLs added through `add_url`. -/
def emptyFrontier (timeDelay : ℚ) : Frontier :=
  { queue := [], seen := [], completed := [], inProgress := 0,
    domainNextAllowed := [], delay := max timeDelay (1 / 2) }

def initFrontier (timeDelay : ℚ) (seeds : List String) : Frontier :=
  seeds.foldl (fun s u => add_url u s) (emptyFrontier timeDelay)

/-! ### Model of src/crawler/mt_worker.py -/

/-- One iteration of `Worker.run` after `get_tbd_url` returned `url`
(mt_worker.py lines 28-40), with the external collaborators as oracles:
`fetch` is `download(url, config)` (line 29, NOT inside the try block —
if it raises, the exception propagates out of `run` and the thread dies),
`scr` is the `scraper(url, resp)` call (lines 31-35, wrapped in
`try/except`, its result passed through `or []`).  Returns the frontier
after the iteration and the number of `mark_url_complete` calls made. -/
def workerIter {E : Type} (fetch : String → Except E Response)
    (scr : String → Response → Except E (Option (List String)))
    (url : String) (s : Frontier) : Frontier × Nat :=
  match fetch url with
  | .error _ => (s, 0)
  | .ok resp =>
    let nextLinks : List String :=
      match scr url resp with
      | .ok o => o.getD []
      | .error _ => []
    let s1 := nextLinks.foldl (fun st l => add_url l st) s
    (mark_url_complete url s1, 1)

/-! ### Spec-level definitions used by the claim statements -/

/-- The dispatch times, in order, of the URLs of domain `D` along a run. -/
def dispatchesD (D : String) (s : Frontier) (evs : List Event) : List ℚ :=
  ((runDispatches s evs).filter (fun p => netloc p.2 == D)).map Prod.fst

/-- The precondition of the spec's completed-⊆-seen invariant: along the
run, `mark_url_complete` is called only on URLs previously returned by
`get_tbd_url` (`disp` accumulates the dispatched URLs). -/
def completesOnlyDispatched (s : Frontier) (disp : List String) :
    List Event → Bool
  | [] => true
  | e :: es =>
    match e with
    | .complete u => decide (u ∈ disp) && completesOnlyDispatched (stepEv s e).1 disp es
    | _ =>
      match stepEv s e with
      | (s2, some p) => completesOnlyDispatched s2 (p.2 :: disp) es
      | (s2, none) => completesOnlyDispatched s2 disp es

/-- The URL-filter contract exactly as the spec words it: accept iff the
scheme is http(s), the host is in the allowed-domain set (exact or
subdomain match), the path+query contains no configured trap substring and
the path does not end in a configured non-content extension
(case-insensitively).  Stated over the parse result, to be compared with
`is_valid`. -/
def isInScopeSpec (p : SplitResult) : Bool :=
  (p.scheme == "http" || p.scheme == "https") &&
  (match hostname p with
   | none => false
   | some h => ALLOWED_DOMAINS.any fun d => h == d || endsWithB h ("." ++ d)) &&
  !(TRAP_WORDS.any fun t => substrB t (lowerStr p.path ++ "?" ++ lowerStr p.query)) &&
  !(BAD_EXTENSIONS.any fun e => endsWithB (lowerStr p.path) ("." ++ e))

/-! ## Frame and shape lemmas -/

theorem add_url_inProgress (u : String) (s : Frontier) :
    (add_url u s).inProgress = s.inProgress := by
  unfold add_url
  split
  · rfl
  · split <;> rfl

theorem add_url_completed (u : String) (s : Frontier) :
    (add_url u s).completed = s.completed := by
  unfold add_url
  split
  · rfl
  · split <;> rfl

theorem add_url_dna (u : String) (s : Frontier) :
    (add_url u s).domainNextAllowed = s.domainNextAllowed := by
  unfold add_url
  split
  · rfl
  · split <;> rfl

theorem add_url_delay (u : String) (s : Frontier) :
    (add_url u s).delay = s.delay := by
  unfold add_url
  split
  · rfl
  · split <;> rfl

theorem add_url_seen_mono (u v : String) (s : Frontier) (h : v ∈ s.seen) :
    v ∈ (add_url u s).seen := by
  unfold add_url
  split
  · exact h
  · split
    · exact h
    · exact List.mem_cons_of_mem _ h

theorem add_url_queue_sub (u v : String) (s : Frontier)
    (h : v ∈ (add_url u s).queue) : v ∈ s.queue ∨ v = u := by
  unfold add_url at h
  split at h
  · exact Or.inl h
  · split at h
    · exact Or.inl h
    · simpa using List.mem_append.mp h

theorem mark_frame (u : String) (s : Frontier) :
    (mark_url_complete u s).queue = s.queue ∧
    (mark_url_complete u s).seen = s.seen ∧
    (mark_url_complete u s).domainNextAllowed = s.domainNextAllowed ∧
    (mark_url_complete u s).delay = s.delay := by
  unfold mark_url_complete
  split <;> exact ⟨rfl, rfl, rfl, rfl⟩

theorem mark_completed_sub (u v : String) (s : Frontier)
    (h : v ∈ (mark_url_complete u s).completed) : v ∈ s.completed ∨ v = u := by
  unfold mark_url_complete at h
  split at h
  · exact Or.inl h
  · split at h
    · exact Or.inl h
    · rcases List.mem_cons.mp h with h1 | h1
      · exact Or.inr h1
      · exact Or.inl h1

/-- Shape of a dispatching scan: the dispatched URL's domain was ready, the
domain table is updated to `now + delay` at that domain only, the
dispatched URL together with the remaining queue is a permutation of the
scanned URLs. -/
theorem scanQueue_some (now delay : ℚ) (dna : List (String × ℚ)) :
    ∀ (front back : List String) (mw : Option ℚ) (u : String)
      (dna2 : List (String × ℚ)) (q : List String) (mw2 : Option ℚ),
      scanQueue now delay dna front back mw = (some (u, dna2), q, mw2) →
      lookupD dna (netloc u) ≤ now ∧
      dna2 = updateDna dna (netloc u) (now + delay) ∧
      (u :: q).Perm (front ++ back) := by
  intro front
  induction front with
  | nil =>
    intro back mw u dna2 q mw2 h
    simp [scanQueue] at h
  | cons x rest ih =>
    intro back mw u dna2 q mw2 h
    rw [scanQueue] at h
    by_cases hr : lookupD dna (netloc x) ≤ now
    · rw [if_pos hr] at h
      simp only [Prod.mk.injEq, Option.some.injEq] at h
      obtain ⟨⟨hu, hdna⟩, hq, _⟩ := h
      subst hu; subst hdna; subst hq
      exact ⟨hr, rfl, List.Perm.refl _⟩
    · rw [if_neg hr] at h
      obtain ⟨h1, h2, h3⟩ := ih (back ++ [x]) _ u dna2 q mw2 h
      refine ⟨h1, h2, ?_⟩
      have hp : (rest ++ (back ++ [x])).Perm ((x :: rest) ++ back) := by
        rw [← List.append_assoc]
        exact (List.perm_append_singleton x (rest ++ back)).trans (List.Perm.refl _)
      exact h3.trans hp

/-- Shape of a scan that dispatches nothing: the queue is only rotated (a
permutation of the scanned URLs). -/
theorem scanQueue_none (now delay : ℚ) (dna : List (String × ℚ)) :
    ∀ (front back : List String) (mw : Option ℚ) (q : List String) (mw2 : Option ℚ),
      scanQueue now delay dna front back mw = (none, q, mw2) →
      q.Perm (front ++ back) := by
  intro front
  induction front with
  | nil =>
    intro back mw q mw2 h
    simp only [scanQueue, Prod.mk.injEq] at h
    rw [← h.2.1]
    exact List.Perm.refl _
  | cons x rest ih =>
    intro back mw q mw2 h
    rw [scanQueue] at h
    by_cases hr : lookupD dna (netloc x) ≤ now
    · rw [if_pos hr] at h
      simp at h
    · rw [if_neg hr] at h
      have := ih (back ++ [x]) _ q mw2 h
      refine this.trans ?_
      rw [← List.append_assoc]
      exact List.perm_append_singleton x (rest ++ back)

/-- Shape of a dispatching `get_tbd_url` pass. -/
theorem getTbdStep_url (now : ℚ) (s : Frontier) (u : String) (s2 : Frontier)
    (h : getTbdStep now s = (.url u, s2)) :
    lookupD s.domainNextAllowed (netloc u) ≤ now ∧
    s2.domainNextAllowed = updateDna s.domainNextAllowed (netloc u) (now + s.delay) ∧
    (u :: s2.queue).Perm s.queue ∧
    s2.seen = s.seen ∧ s2.completed = s.completed ∧
    s2.inProgress = s.inProgress + 1 ∧ s2.delay = s.delay := by
  unfold getTbdStep at h
  split at h
  · split at h <;> simp at h
  · rename_i x q0 qrest heq
    split at h
    · rename_i v dna2 q mw hscan
      simp only [Prod.mk.injEq, GetResult.url.injEq] at h
      obtain ⟨hv, hs2⟩ := h
      subst hv
      obtain ⟨h1, h2, h3⟩ := scanQueue_some now s.delay s.domainNextAllowed
        (q0 :: qrest) [] none v dna2 q mw hscan
      rw [← hs2]
      refine ⟨h1, by rw [h2], ?_, rfl, rfl, rfl, rfl⟩
      rw [heq]
      simpa using h3
    · simp at h

/-- A non-dispatching `get_tbd_url` pass leaves everything except the queue
unchanged, and only rotates the queue. -/
theorem getTbdStep_nourl (now : ℚ) (s : Frontier) (r : GetResult) (s2 : Frontier)
    (h : getTbdStep now s = (r, s2)) (hr : ∀ u, r ≠ .url u) :
    s2.domainNextAllowed = s.domainNextAllowed ∧
    s2.queue.Perm s.queue ∧
    s2.seen = s.seen ∧ s2.completed = s.completed ∧
    s2.inProgress = s.inProgress ∧ s2.delay = s.delay := by
  unfold getTbdStep at h
  split at h
  · rename_i heq
    split at h <;>
      · simp only [Prod.mk.injEq] at h
        rw [← h.2]
        exact ⟨rfl, by rw [heq], rfl, rfl, rfl, rfl⟩
  · rename_i x q0 qrest heq
    split at h
    · rename_i v dna2 q mw hscan
      simp only [Prod.mk.injEq] at h
      exact absurd h.1.symm (hr v)
    · rename_i q mw hscan
      simp only [Prod.mk.injEq] at h
      rw [← h.2]
      have hp := scanQueue_none now s.delay s.domainNextAllowed
        (q0 :: qrest) [] none q mw hscan
      refine ⟨rfl, ?_, rfl, rfl, rfl, rfl⟩
      rw [heq]
      simpa using hp

/-- C1: `get_tbd_url` returns the terminal `None` from a lock-held check if
and only if, at that check, the pending queue is empty and the in-flight
counter is zero; in particular it never returns `None` while the counter is
positive or the queue is non-empty. -/
theorem getTbd_done_iff_quiescent (now : ℚ) (s : Frontier) :
    (getTbdStep now s).1 = GetResult.done ↔ s.queue = [] ∧ s.inProgress = 0 := by
  unfold getTbdStep
  split
  · rename_i heq
    by_cases hp : s.inProgress = 0 <;> simp [heq, hp]
  · rename_i x q0 qrest heq
    split
    · simp [heq]
    · simp [heq]

/-! ## In-flight counter (C5) -/

theorem stepEv_inProgress_nonneg (e : Event) (s : Frontier) (h : 0 ≤ s.inProgress) :
    0 ≤ (stepEv s e).1.inProgress := by
  cases e with
  | add u => simpa [stepEv, add_url_inProgress] using h
  | complete u =>
    simp only [stepEv]
    unfold mark_url_complete
    split
    · exact h
    · simp only
      split <;> omega
  | get now =>
    rcases hg : getTbdStep now s with ⟨r, s2⟩
    cases r with
    | url u =>
      have h6 := (getTbdStep_url now s u s2 hg).2.2.2.2.2.1
      simp only [stepEv, hg]
      omega
    | done =>
      have h5 := (getTbdStep_nourl now s .done s2 hg (fun u => by simp)).2.2.2.2.1
      simp only [stepEv, hg]
      omega
    | sleep t =>
      have h5 := (getTbdStep_nourl now s (.sleep t) s2 hg (fun u => by simp)).2.2.2.2.1
      simp only [stepEv, hg]
      omega

theorem runEvents_inProgress_nonneg :
    ∀ (evs : List Event) (s : Frontier), 0 ≤ s.inProgress →
      0 ≤ (runEvents s evs).inProgress := by
  intro evs
  induction evs with
  | nil => intro s h; exact h
  | cons e es ih =>
    intro s h
    exact ih _ (stepEv_inProgress_nonneg e s h)

theorem foldl_add_url_inProgress (l : List String) :
    ∀ s : Frontier, (l.foldl (fun s u => add_url u s) s).inProgress = s.inProgress := by
  induction l with
  | nil => intro s; rfl
  | cons x xs ih => intro s; rw [List.foldl_cons, ih, add_url_inProgress]

theorem initFrontier_inProgress (timeDelay : ℚ) (seeds : List String) :
    (initFrontier timeDelay seeds).inProgress = 0 := by
  rw [initFrontier, foldl_add_url_inProgress]
  rfl

/-- C5: across any sequence of Frontier calls — including double completes
and completes of URLs never dispatched — the in-flight counter never goes
negative; `mark_url_complete` clamps the decrement at zero (the counter is
a Python int, modelled as `Int`, so this is not automatic) and is a total
function (it returns normally on misuse). -/
theorem inflight_never_negative :
    (∀ (s : Frontier) (u : String), 0 ≤ s.inProgress →
      0 ≤ (mark_url_complete u s).inProgress) ∧
    (∀ (s : Frontier) (u : String), s.inProgress = 0 →
      (mark_url_complete u s).inProgress = 0) ∧
    (∀ (timeDelay : ℚ) (seeds : List String) (evs : List Event),
      0 ≤ (runEvents (initFrontier timeDelay seeds) evs).inProgress) := by
  refine ⟨?_, ?_, ?_⟩
  · intro s u h
    exact stepEv_inProgress_nonneg (.complete u) s h
  · intro s u h
    unfold mark_url_complete
    split
    · exact h
    · simp only
      split <;> omega
  · intro timeDelay seeds evs
    exact runEvents_inProgress_nonneg evs _ (by rw [initFrontier_inProgress])

/-! ## Scraper short-circuits (C6, C9) -/

/-- C6: a response whose status is not 200 (including the application-level
codes ≥ 600 the cache server uses) or whose `raw_response` is `None`
produces no links: `scraper` returns the empty list before any extraction
is attempted. -/
theorem scraper_failure_no_links (url : String) (resp : Response)
    (h : resp.status ≠ 200 ∨ resp.rawResponse = none) :
    scraper url resp = Except.ok [] := by
  rcases resp with ⟨st, ro⟩
  rcases ro with _ | raw
  · rfl
  · rcases h with h | h
    · simp only at h
      unfold scraper
      simp only
      rw [if_pos h]
    · exact absurd h (by simp)

theorem scraper_failure_no_links_witness :
    scraper "http://www.ics.uci.edu/" ⟨604, none⟩ = Except.ok [] :=
  scraper_failure_no_links "http://www.ics.uci.edu/" ⟨604, none⟩ (Or.inr rfl)

/-- C9: a successfully downloaded HTML page whose token count (maximal
`[a-zA-Z]+` runs of the lowercased text, counted before stopword
filtering) is below 50 is treated as low-information: `scraper` discards
every extracted link and returns the empty list. -/
theorem scraper_low_info_no_links (url : String) (resp : Response) (raw : Raw)
    (soup : Soup) (hst : resp.status = 200) (hraw : resp.rawResponse = some raw)
    (hct : substrB "text/html" (headerGet raw.headers "Content-Type") = true)
    (hsoup : raw.content = some soup)
    (hlen : (tokens soup.text).length < 50) :
    scraper url resp = Except.ok [] := by
  rcases resp with ⟨st, ro⟩
  simp only at hst hraw
  subst hst
  subst hraw
  unfold scraper
  simp only
  rw [if_neg (by simp : ¬(200 ≠ 200))]
  rw [hct]
  rw [hsoup]
  rw [if_pos rfl]
  simp only
  rw [if_pos hlen]

theorem scraper_low_info_no_links_witness :
    scraper "http://www.ics.uci.edu/"
      ⟨200, some ⟨some "http://www.ics.uci.edu/", [("Content-Type", "text/html")],
        some ⟨"too short a page", ["https://www.ics.uci.edu/a"]⟩⟩⟩ = Except.ok [] :=
  scraper_low_info_no_links _ _ _ _ rfl rfl rfl rfl (by decide)

/-! ## is_valid totality (C10) -/

/-- C10: `is_valid` is not total over arbitrary URL strings.  Its
`try/except` catches only `TypeError`, so the `ValueError` that CPython's
url parsing raises for a malformed IPv6 bracket host propagates to the
caller instead of yielding a boolean; the embedding returns the uncaught
exception as an `Except.error` value. -/
theorem is_valid_not_total :
    is_valid "https://[::1" = Except.error PyErr.valueError := rfl

/-! ## Worker loop and completion (C4) -/

/-- C4 counterexample: `download` (mt_worker.py line 29) is NOT inside the
`try` block, so a download that fails by raising ends the iteration with
zero `mark_url_complete` calls — the dispatched URL is never completed,
contradicting the claim that completion is structurally unconditional. -/
theorem worker_fetch_raise_no_complete :
    (workerIter (fun _ => Except.error ()) (fun _ _ => Except.ok (some []))
      "http://www.ics.uci.edu/" (emptyFrontier 1)).2 = 0 := rfl

/-- C4 amended: whenever the download returns a response (its contractual
behaviour — errors are reported as status codes, not exceptions), the
worker calls `mark_url_complete` exactly once for the dispatched URL, even
when link extraction raises or returns a falsy value; only a download that
itself raises skips completion. -/
theorem worker_completes_once_when_download_returns {E : Type}
    (fetch : String → Except E Response)
    (scr : String → Response → Except E (Option (List String)))
    (url : String) (s : Frontier) (resp : Response)
    (h : fetch url = Except.ok resp) :
    (workerIter fetch scr url s).2 = 1 := by
  unfold workerIter
  rw [h]

theorem worker_completes_once_witness :
    (workerIter (fun _ => Except.ok (⟨404, none⟩ : Response))
      (fun _ _ => Except.error ()) "http://www.ics.uci.edu/" (emptyFrontier 1)).2 = 1 :=
  worker_completes_once_when_download_returns
    (fun _ => Except.ok (⟨404, none⟩ : Response)) (fun _ _ => Except.error ())
    "http://www.ics.uci.edu/" (emptyFrontier 1) ⟨404, none⟩ rfl

/-! ## URL filter (C7) -/

/-- C7 counterexample: the claim quantifies over every URL string and
asserts that `is_valid` returns a boolean (False for out-of-scope URLs,
True otherwise).  On a URL whose netloc has an unmatched IPv6 bracket the
url parsing raises `ValueError`, which `is_valid` does not catch — it
returns no boolean at all at this input. -/
theorem is_valid_exception_cex :
    is_valid "http://[::1" = Except.error PyErr.valueError := rfl

/-- C7 amended: for every URL string on which url parsing succeeds (no
`ValueError`), `is_valid` returns exactly the spec's scope predicate: False
iff the scheme is not http(s), the host is missing or outside the
allowed-domain set (exact or subdomain match), the path+query contains a
configured trap substring, or the path ends in a configured non-content
extension (case-insensitively); True otherwise.  On a parse failure the
exception propagates (see the counterexample). -/
theorem is_valid_matches_scope_spec (url : String) (p : SplitResult)
    (h : pyUrlparse url = Except.ok p) :
    is_valid url = Except.ok (isInScopeSpec p) := by
  unfold is_valid
  rw [h]
  cases h1 : (p.scheme == "http" || p.scheme == "https")
  · simp [isInScopeSpec, h1]
  · cases h2 : hostname p
    · simp [isInScopeSpec, h1, h2]
    · rename_i hst
      cases h3 : ALLOWED_DOMAINS.any fun d => hst == d || endsWithB hst ("." ++ d)
      · simp [isInScopeSpec, h1, h2, h3]
      · cases h4 : TRAP_WORDS.any fun t =>
            substrB t (lowerStr p.path ++ "?" ++ lowerStr p.query)
        · cases h5 : BAD_EXTENSIONS.any fun e => endsWithB (lowerStr p.path) ("." ++ e)
          · simp [isInScopeSpec, h1, h2, h3, h4, h5]
          · simp [isInScopeSpec, h1, h2, h3, h4, h5]
        · simp [isInScopeSpec, h1, h2, h3, h4]

theorem is_valid_matches_scope_spec_witness :
    is_valid "https://www.ics.uci.edu/a?b=c" =
      Except.ok (isInScopeSpec (urlsplitRaw "https://www.ics.uci.edu/a?b=c")) :=
  is_valid_matches_scope_spec "https://www.ics.uci.edu/a?b=c"
    (urlsplitRaw "https://www.ics.uci.edu/a?b=c") rfl

/-! ## Politeness (C2) -/

theorem lookupD_cons (p : String × ℚ) (rest : List (String × ℚ)) (d : String) :
    lookupD (p :: rest) d = if p.1 == d then p.2 else lookupD rest d := by
  by_cases h : (p.1 == d) = true <;> simp [lookupD, List.find?, h]

theorem lookupD_updateDna (k d : String) (v : ℚ) :
    ∀ dna : List (String × ℚ),
      lookupD (updateDna dna k v) d = if d = k then v else lookupD dna d := by
  intro dna
  induction dna with
  | nil =>
    by_cases h : d = k
    · subst h
      simp [updateDna, lookupD, List.find?]
    · have hk : (k == d) = false := beq_eq_false_iff_ne.mpr (fun e => h e.symm)
      simp [updateDna, lookupD, List.find?, hk, h]
  | cons p rest ih =>
    by_cases hp : p.1 = k
    · have hpk : (p.1 == k) = true := beq_iff_eq.mpr hp
      simp only [updateDna, hpk, if_true]
      by_cases h : d = k
      · subst h
        rw [lookupD_cons, lookupD_cons]
        simp [beq_iff_eq, hp]
      · have hk : (k == d) = false := beq_eq_false_iff_ne.mpr (fun e => h e.symm)
        have hpd : (p.1 == d) = false :=
          beq_eq_false_iff_ne.mpr (by rw [hp]; exact fun e => h e.symm)
        rw [lookupD_cons, lookupD_cons]
        simp [hk, hpd, h]
    · have hpk : (p.1 == k) = false := beq_eq_false_iff_ne.mpr hp
      simp only [updateDna, hpk, Bool.false_eq_true, if_false]
      rw [lookupD_cons, lookupD_cons, ih]
      by_cases hd : p.1 = d
      · have hpd : (p.1 == d) = true := beq_iff_eq.mpr hd
        have h : ¬(d = k) := fun e => hp (hd.trans e)
        simp [hpd, h]
      · have hpd : (p.1 == d) = false := beq_eq_false_iff_ne.mpr hd
        by_cases h : d = k <;> simp [hpd, h, hp]

theorem stepEv_dispatch (s : Frontier) (e : Event) (s2 : Frontier) (t : ℚ) (u : String)
    (h : stepEv s e = (s2, some (t, u))) :
    getTbdStep t s = (.url u, s2) := by
  cases e with
  | add v => simp [stepEv] at h
  | complete v => simp [stepEv] at h
  | get now =>
    rcases hg : getTbdStep now s with ⟨r, s3⟩
    cases r with
    | url v =>
      simp only [stepEv, hg, Prod.mk.injEq, Option.some.injEq] at h
      obtain ⟨h1, h2, h3⟩ := h
      subst h1; subst h2; subst h3
      exact hg
    | done => simp [stepEv, hg] at h
    | sleep w => simp [stepEv, hg] at h

theorem stepEv_none_dna (s : Frontier) (e : Event) (s2 : Frontier)
    (h : stepEv s e = (s2, none)) :
    s2.domainNextAllowed = s.domainNextAllowed ∧ s2.delay = s.delay := by
  cases e with
  | add v =>
    simp only [stepEv, Prod.mk.injEq, and_true] at h
    rw [← h]
    exact ⟨add_url_dna v s, add_url_delay v s⟩
  | complete v =>
    simp only [stepEv, Prod.mk.injEq, and_true] at h
    rw [← h]
    exact ⟨(mark_frame v s).2.2.1, (mark_frame v s).2.2.2⟩
  | get now =>
    rcases hg : getTbdStep now s with ⟨r, s3⟩
    cases r with
    | url v => simp [stepEv, hg] at h
    | done =>
      simp only [stepEv, hg, Prod.mk.injEq, and_true] at h
      subst h
      have hn := getTbdStep_nourl now s .done s3 hg (fun u => by simp)
      exact ⟨hn.1, hn.2.2.2.2.2⟩
    | sleep w =>
      simp only [stepEv, hg, Prod.mk.injEq, and_true] at h
      subst h
      have hn := getTbdStep_nourl now s (.sleep w) s3 hg (fun u => by simp)
      exact ⟨hn.1, hn.2.2.2.2.2⟩

theorem runDispatches_cons (s : Frontier) (e : Event) (es : List Event) :
    runDispatches s (e :: es) =
      (stepEv s e).2.toList ++ runDispatches (stepEv s e).1 es := rfl

/-- Same-domain dispatch times along a run form a chain spaced by at least
the politeness delay; the virtual head `lookup - d` accounts for the
domain's current next-allowed time. -/
theorem dispatchesD_chain (D : String) (d : ℚ) :
    ∀ (evs : List Event) (s : Frontier), s.delay = d →
      List.Chain' (fun a b => a + d ≤ b)
        ((lookupD s.domainNextAllowed D - d) :: dispatchesD D s evs) := by
  intro evs
  induction evs with
  | nil =>
    intro s hd
    simp [dispatchesD, runDispatches]
  | cons e es ih =>
    intro s hd
    rcases hstep : stepEv s e with ⟨s2, od⟩
    have hrun : dispatchesD D s (e :: es) =
        ((od.toList.filter fun p => netloc p.2 == D).map Prod.fst) ++
          dispatchesD D s2 es := by
      unfold dispatchesD
      rw [runDispatches_cons, hstep]
      simp [List.filter_append]
    cases od with
    | none =>
      obtain ⟨hdna, hdel⟩ := stepEv_none_dna s e s2 hstep
      rw [hrun]
      simp only [Option.toList, List.filter_nil, List.map_nil, List.nil_append]
      have hch := ih s2 (hdel.trans hd)
      rw [hdna] at hch
      exact hch
    | some p =>
      rcases p with ⟨t, u⟩
      have hget := stepEv_dispatch s e s2 t u hstep
      obtain ⟨hready, hdna2, _, _, _, _, hdel⟩ := getTbdStep_url t s u s2 hget
      rw [hrun]
      by_cases hDu : netloc u = D
      · have hfil : ((some (t, u)).toList.filter fun p => netloc p.2 == D) = [(t, u)] := by
          simp [hDu]
        rw [hfil]
        simp only [List.map_cons, List.map_nil, List.cons_append, List.nil_append]
        rw [List.chain'_cons]
        constructor
        · have h1 : lookupD s.domainNextAllowed D ≤ t := by rw [← hDu]; exact hready
          linarith
        · have hch := ih s2 (hdel.trans hd)
          rw [hdna2, lookupD_updateDna, if_pos hDu.symm] at hch
          have he : t + s.delay - d = t := by rw [hd]; ring
          rw [he] at hch
          exact hch
      · have hfil : ((some (t, u)).toList.filter fun p => netloc p.2 == D) = [] := by
          simp [hDu]
        rw [hfil]
        simp only [List.map_nil, List.nil_append]
        have hch := ih s2 (hdel.trans hd)
        rw [hdna2, lookupD_updateDna, if_neg (fun e => hDu e.symm)] at hch
        exact hch

theorem dispatchesD_pairwise (D : String) (d : ℚ) (hd : 0 ≤ d)
    (s : Frontier) (evs : List Event) (hdel : s.delay = d) :
    List.Pairwise (fun a b => a + d ≤ b) (dispatchesD D s evs) := by
  haveI : IsTrans ℚ (fun a b => a + d ≤ b) :=
    ⟨fun a b c hab hbc => by linarith⟩
  exact List.chain'_iff_pairwise.mp (dispatchesD_chain D d evs s hdel).tail

theorem foldl_add_url_delay (l : List String) :
    ∀ s : Frontier, (l.foldl (fun s u => add_url u s) s).delay = s.delay := by
  induction l with
  | nil => intro s; rfl
  | cons x xs ih => intro s; rw [List.foldl_cons, ih, add_url_delay]

theorem initFrontier_delay (timeDelay : ℚ) (seeds : List String) :
    (initFrontier timeDelay seeds).delay = max timeDelay (1 / 2) := by
  rw [initFrontier, foldl_add_url_delay]
  rfl

/-- C2: for any domain D, two URLs of D dispatched by `get_tbd_url` at
times t1 < t2 along any interleaving satisfy t2 - t1 ≥ the configured
politeness delay; and the next-allowed timestamp for D is set to
`now + delay` at the moment of dispatch (never at completion), so a slow
download cannot shorten the spacing. -/
theorem politeness_min_spacing :
    (∀ (timeDelay : ℚ) (seeds : List String) (evs : List Event) (D : String)
       (i j : Fin (dispatchesD D (initFrontier timeDelay seeds) evs).length),
       (dispatchesD D (initFrontier timeDelay seeds) evs).get i <
         (dispatchesD D (initFrontier timeDelay seeds) evs).get j →
       (dispatchesD D (initFrontier timeDelay seeds) evs).get i +
           (initFrontier timeDelay seeds).delay ≤
         (dispatchesD D (initFrontier timeDelay seeds) evs).get j) ∧
    (∀ (now : ℚ) (s s2 : Frontier) (u : String),
       getTbdStep now s = (.url u, s2) →
       lookupD s2.domainNextAllowed (netloc u) = now + s.delay) := by
  constructor
  · intro timeDelay seeds evs D i j hlt
    have hd0 : 0 ≤ max timeDelay (1 / 2 : ℚ) :=
      le_trans (by norm_num) (le_max_right timeDelay (1 / 2))
    have hpw := dispatchesD_pairwise D (max timeDelay (1 / 2))
      hd0 (initFrontier timeDelay seeds) evs (initFrontier_delay timeDelay seeds)
    rw [initFrontier_delay]
    rcases lt_trichotomy (i : ℕ) (j : ℕ) with hij | hij | hij
    · exact List.pairwise_iff_get.mp hpw i j hij
    · exfalso
      have hij2 : i = j := Fin.ext hij
      rw [hij2] at hlt
      exact lt_irrefl _ hlt
    · have := List.pairwise_iff_get.mp hpw j i hij
      exact absurd hlt (by intro hc; linarith)
  · intro now s s2 u h
    obtain ⟨_, hdna2, _⟩ := getTbdStep_url now s u s2 h
    rw [hdna2, lookupD_updateDna, if_pos rfl]

/-! ## Deduplication (C3) -/

theorem add_url_spec (u : String) (s : Frontier) :
    add_url u s = s ∨
      (u ∉ s.seen ∧ (add_url u s).queue = s.queue ++ [u] ∧
        (add_url u s).seen = u :: s.seen) := by
  unfold add_url
  split
  · exact Or.inl rfl
  · split
    · exact Or.inl rfl
    · rename_i h1 h2
      exact Or.inr ⟨fun hmem => h2 (Or.inl hmem), rfl, rfl⟩

theorem stepEv_get_none (now : ℚ) (s s2 : Frontier)
    (h : stepEv s (.get now) = (s2, none)) :
    s2.queue.Perm s.queue ∧ s2.seen = s.seen ∧ s2.completed = s.completed := by
  rcases hg : getTbdStep now s with ⟨r, s3⟩
  cases r with
  | url v => simp [stepEv, hg] at h
  | done =>
    simp only [stepEv, hg, Prod.mk.injEq, and_true] at h
    subst h
    have hn := getTbdStep_nourl now s .done s3 hg (fun u => by simp)
    exact ⟨hn.2.1, hn.2.2.1, hn.2.2.2.1⟩
  | sleep w =>
    simp only [stepEv, hg, Prod.mk.injEq, and_true] at h
    subst h
    have hn := getTbdStep_nourl now s (.sleep w) s3 hg (fun u => by simp)
    exact ⟨hn.2.1, hn.2.2.1, hn.2.2.2.1⟩

theorem stepEv_some_state (s : Frontier) (e : Event) (s2 : Frontier) (t : ℚ) (u : String)
    (h : stepEv s e = (s2, some (t, u))) :
    (u :: s2.queue).Perm s.queue ∧ s2.seen = s.seen ∧ s2.completed = s.completed := by
  have hget := stepEv_dispatch s e s2 t u h
  obtain ⟨_, _, hperm, hseen, hcomp, _, _⟩ := getTbdStep_url t s u s2 hget
  exact ⟨hperm, hseen, hcomp⟩

/-- Generalized dedup invariant. -/
theorem runDispatches_nodup_aux :
    ∀ (evs : List Event) (s : Frontier) (disp : List String),
      s.queue.Nodup →
      (∀ u ∈ s.queue, u ∈ s.seen) →
      (∀ u ∈ disp, u ∈ s.seen ∧ u ∉ s.queue) →
      disp.Nodup →
      (disp ++ (runDispatches s evs).map Prod.snd).Nodup := by
  intro evs
  induction evs with
  | nil =>
    intro s disp _ _ _ hd
    simpa [runDispatches] using hd
  | cons e es ih =>
    intro s disp hq hqs hdisp hd
    rw [runDispatches_cons]
    rcases hstep : stepEv s e with ⟨s2, od⟩
    cases od with
    | none =>
      simp only [Option.toList, List.nil_append]
      cases e with
      | add v =>
        simp only [stepEv, Prod.mk.injEq, and_true] at hstep
        subst hstep
        rcases add_url_spec v s with heq | ⟨hns, hq2, hs2⟩
        · rw [heq]
          exact ih s disp hq hqs hdisp hd
        · apply ih
          · rw [hq2]
            simp only [List.nodup_append, List.nodup_cons, List.not_mem_nil,
              not_false_iff, List.nodup_nil, List.disjoint_singleton, true_and, and_true]
            exact ⟨hq, fun hv => hns (hqs v hv)⟩
          · intro u hu
            rw [hq2] at hu
            rw [hs2]
            rcases List.mem_append.mp hu with h1 | h1
            · exact List.mem_cons_of_mem _ (hqs u h1)
            · simp at h1
              subst h1
              exact List.mem_cons_self _ _
          · intro u hu
            obtain ⟨hu1, hu2⟩ := hdisp u hu
            refine ⟨by rw [hs2]; exact List.mem_cons_of_mem _ hu1, ?_⟩
            rw [hq2]
            intro hc
            rcases List.mem_append.mp hc with h1 | h1
            · exact hu2 h1
            · simp at h1
              subst h1
              exact hns hu1
          · exact hd
      | complete v =>
        simp only [stepEv, Prod.mk.injEq, and_true] at hstep
        subst hstep
        obtain ⟨hmq, hms, _, _⟩ := mark_frame v s
        apply ih
        · rw [hmq]; exact hq
        · intro u hu; rw [hmq] at hu; rw [hms]; exact hqs u hu
        · intro u hu
          obtain ⟨h1, h2⟩ := hdisp u hu
          rw [hms, hmq]
          exact ⟨h1, h2⟩
        · exact hd
      | get now =>
        obtain ⟨hperm, hseen, _⟩ := stepEv_get_none now s s2 hstep
        apply ih
        · exact (hperm.nodup_iff).mpr hq
        · intro u hu
          rw [hseen]
          exact hqs u (hperm.subset hu)
        · intro u hu
          obtain ⟨h1, h2⟩ := hdisp u hu
          rw [hseen]
          exact ⟨h1, fun hc => h2 (hperm.subset hc)⟩
        · exact hd
    | some p =>
      rcases p with ⟨t, u⟩
      obtain ⟨hperm, hseen, _⟩ := stepEv_some_state s e s2 t u hstep
      have huq : u ∈ s.queue := hperm.subset (List.mem_cons_self _ _)
      have hnodup2 : (u :: s2.queue).Nodup := (hperm.nodup_iff).mpr hq
      have hu_notq2 : u ∉ s2.queue := (List.nodup_cons.mp hnodup2).1
      have hq2 : s2.queue.Nodup := (List.nodup_cons.mp hnodup2).2
      simp only [Option.toList, List.map_cons, List.cons_append, List.map_nil, List.nil_append, List.singleton_append]
      have hassoc : disp ++ u :: (runDispatches s2 es).map Prod.snd =
          (disp ++ [u]) ++ (runDispatches s2 es).map Prod.snd := by
        simp
      rw [hassoc]
      apply ih
      · exact hq2
      · intro x hx
        rw [hseen]
        exact hqs x (hperm.subset (List.mem_cons_of_mem _ hx))
      · intro x hx
        rcases List.mem_append.mp hx with h1 | h1
        · obtain ⟨hx1, hx2⟩ := hdisp x h1
          refine ⟨by rw [hseen]; exact hx1, ?_⟩
          intro hc
          exact hx2 (hperm.subset (List.mem_cons_of_mem _ hc))
        · simp at h1
          subst h1
          exact ⟨by rw [hseen]; exact hqs x huq, hu_notq2⟩
      · simp only [List.nodup_append, List.nodup_cons, List.not_mem_nil,
          not_false_iff, List.nodup_nil, List.disjoint_singleton, true_and, and_true]
        exact ⟨hd, fun hc => (hdisp u hc).2 huq⟩

theorem foldl_add_url_completed (l : List String) :
    ∀ s : Frontier, (l.foldl (fun s u => add_url u s) s).completed = s.completed := by
  induction l with
  | nil => intro s; rfl
  | cons x xs ih => intro s; rw [List.foldl_cons, ih, add_url_completed]

theorem initFrontier_queue_invariants (timeDelay : ℚ) (seeds : List String) :
    (initFrontier timeDelay seeds).queue.Nodup ∧
      (∀ u ∈ (initFrontier timeDelay seeds).queue, u ∈ (initFrontier timeDelay seeds).seen) := by
  suffices h : ∀ (l : List String) (s : Frontier),
      s.queue.Nodup → (∀ u ∈ s.queue, u ∈ s.seen) →
      (l.foldl (fun s u => add_url u s) s).queue.Nodup ∧
        ∀ u ∈ (l.foldl (fun s u => add_url u s) s).queue,
          u ∈ (l.foldl (fun s u => add_url u s) s).seen by
    exact h seeds (emptyFrontier timeDelay) (by simp [emptyFrontier]) (by simp [emptyFrontier])
  intro l
  induction l with
  | nil => intro s h1 h2; exact ⟨h1, h2⟩
  | cons x xs ih =>
    intro s h1 h2
    rw [List.foldl_cons]
    rcases add_url_spec x s with heq | ⟨hns, hqe, hse⟩
    · rw [heq]; exact ih s h1 h2
    · apply ih
      · rw [hqe]
        simp only [List.nodup_append, List.nodup_cons, List.not_mem_nil, not_false_iff,
          List.nodup_nil, List.disjoint_singleton, true_and, and_true]
        exact ⟨h1, fun hv => hns (h2 x hv)⟩
      · intro u hu
        rw [hqe] at hu
        rw [hse]
        rcases List.mem_append.mp hu with hh | hh
        · exact List.mem_cons_of_mem _ (h2 u hh)
        · simp at hh; subst hh; exact List.mem_cons_self _ _

/-- C3: `add_url` with an empty URL is a no-op; with a URL already in the
seen set or the completed set it is a no-op (idempotent); otherwise it
inserts the URL into the seen set and appends it to the pending queue.
Consequently, over any run (any interleaving of add_url, get_tbd_url and
mark_url_complete events, with arbitrarily repeated URLs), each distinct
URL is dispatched by `get_tbd_url` at most once. -/
theorem add_url_dedup :
    (∀ s : Frontier, add_url "" s = s) ∧
    (∀ (s : Frontier) (u : String), u ∈ s.seen ∨ u ∈ s.completed → add_url u s = s) ∧
    (∀ (s : Frontier) (u : String), u ≠ "" → u ∉ s.seen → u ∉ s.completed →
      (add_url u s).seen = u :: s.seen ∧ (add_url u s).queue = s.queue ++ [u]) ∧
    (∀ (timeDelay : ℚ) (seeds : List String) (evs : List Event),
      ((runDispatches (initFrontier timeDelay seeds) evs).map Prod.snd).Nodup) := by
  refine ⟨?_, ?_, ?_, ?_⟩
  · intro s; unfold add_url; rw [if_pos rfl]
  · intro s u h
    unfold add_url
    by_cases h0 : u = ""
    · rw [if_pos h0]
    · rw [if_neg h0, if_pos h]
  · intro s u h1 h2 h3
    unfold add_url
    rw [if_neg h1, if_neg (fun hc => hc.elim h2 h3)]
    exact ⟨rfl, rfl⟩
  · intro timeDelay seeds evs
    obtain ⟨hnq, hqs⟩ := initFrontier_queue_invariants timeDelay seeds
    have hmain := runDispatches_nodup_aux evs (initFrontier timeDelay seeds) [] hnq hqs
      (by intro u hu; simp at hu) List.nodup_nil
    simpa using hmain

theorem runEvents_cons (s : Frontier) (e : Event) (es : List Event) :
    runEvents s (e :: es) = runEvents (stepEv s e).1 es := rfl

/-- Generalized completed-subset-seen invariant. -/
theorem completes_sub_aux :
    ∀ (evs : List Event) (s : Frontier) (disp : List String),
      (∀ u ∈ s.completed, u ∈ s.seen) →
      (∀ u ∈ disp, u ∈ s.seen) →
      (∀ u ∈ s.queue, u ∈ s.seen) →
      completesOnlyDispatched s disp evs = true →
      ∀ u ∈ (runEvents s evs).completed, u ∈ (runEvents s evs).seen := by
  intro evs
  induction evs with
  | nil =>
    intro s disp hc _ _ _
    exact hc
  | cons e es ih =>
    intro s disp hc hdisp hqs hpre
    rw [runEvents_cons]
    cases e with
    | add v =>
      simp only [completesOnlyDispatched, stepEv] at hpre
      simp only [stepEv]
      rcases add_url_spec v s with heq | ⟨hns, hqe, hse⟩
      · rw [heq] at hpre ⊢
        exact ih s disp hc hdisp hqs hpre
      · apply ih _ disp
        · intro u hu
          rw [add_url_completed] at hu
          rw [hse]
          exact List.mem_cons_of_mem _ (hc u hu)
        · intro u hu
          rw [hse]
          exact List.mem_cons_of_mem _ (hdisp u hu)
        · intro u hu
          rw [hqe] at hu
          rw [hse]
          rcases List.mem_append.mp hu with hh | hh
          · exact List.mem_cons_of_mem _ (hqs u hh)
          · simp at hh; subst hh; exact List.mem_cons_self _ _
        · exact hpre
    | complete v =>
      simp only [completesOnlyDispatched, Bool.and_eq_true, decide_eq_true_eq] at hpre
      obtain ⟨hvdisp, hpre⟩ := hpre
      simp only [stepEv] at hpre ⊢
      obtain ⟨hmq, hms, _, _⟩ := mark_frame v s
      apply ih _ disp
      · intro u hu
        rcases mark_completed_sub v u s hu with hh | hh
        · rw [hms]; exact hc u hh
        · rw [hms]; subst hh; exact hdisp u hvdisp
      · intro u hu
        rw [hms]
        exact hdisp u hu
      · intro u hu
        rw [hmq] at hu
        rw [hms]
        exact hqs u hu
      · exact hpre
    | get now =>
      simp only [completesOnlyDispatched] at hpre
      rcases hstep : stepEv s (.get now) with ⟨s2, od⟩
      rw [hstep] at hpre
      cases od with
      | none =>
        obtain ⟨hperm, hseen, hcomp⟩ := stepEv_get_none now s s2 hstep
        apply ih _ disp
        · intro u hu
          rw [hcomp] at hu
          rw [hseen]
          exact hc u hu
        · intro u hu
          rw [hseen]
          exact hdisp u hu
        · intro u hu
          rw [hseen]
          exact hqs u (hperm.subset hu)
        · exact hpre
      | some p =>
        rcases p with ⟨t, u0⟩
        obtain ⟨hperm, hseen, hcomp⟩ := stepEv_some_state s (.get now) s2 t u0 hstep
        apply ih _ (u0 :: disp)
        · intro u hu
          rw [hcomp] at hu
          rw [hseen]
          exact hc u hu
        · intro u hu
          rw [hseen]
          rcases List.mem_cons.mp hu with hh | hh
          · subst hh
            exact hqs u (hperm.subset (List.mem_cons_self _ _))
          · exact hdisp u hh
        · intro u hu
          rw [hseen]
          exact hqs u (hperm.subset (List.mem_cons_of_mem _ hu))
        · exact hpre

/-- C8: under the precondition that `mark_url_complete` is called only on
URLs previously returned by `get_tbd_url`, the invariant completed ⊆ seen
holds in every state reachable by any interleaving of add_url, get_tbd_url
and mark_url_complete; and `mark_url_complete` itself inserts into the
completed set without checking seen-set membership (the second conjunct
holds for any state, whether or not the URL is in the seen set). -/
theorem completed_subset_seen :
    (∀ (timeDelay : ℚ) (seeds : List String) (evs : List Event),
      completesOnlyDispatched (initFrontier timeDelay seeds) [] evs = true →
      ∀ u ∈ (runEvents (initFrontier timeDelay seeds) evs).completed,
        u ∈ (runEvents (initFrontier timeDelay seeds) evs).seen) ∧
    (∀ (s : Frontier) (u : String), u ≠ "" → u ∈ (mark_url_complete u s).completed) := by
  constructor
  · intro timeDelay seeds evs hpre
    obtain ⟨_, hqs⟩ := initFrontier_queue_invariants timeDelay seeds
    apply completes_sub_aux evs (initFrontier timeDelay seeds) []
    · intro u hu
      rw [initFrontier, foldl_add_url_completed] at hu
      simp [emptyFrontier] at hu
    · intro u hu
      simp at hu
    · exact hqs
    · exact hpre
  · intro s u h
    unfold mark_url_complete
    rw [if_neg h]
    simp only
    split
    · assumption
    · exact List.mem_cons_self _ _

end Crawler
